import Mathlib

/-!
Verification development for the `ztrie` route trie of this repository.

The repository ships the public interface of the trie
(`src/ocamlczmq/czmq/include/ztrie.h`) and a QML wrapper that forwards to it
(`src/ocamlczmq/czmq/bindings/qml/src/QmlZtrie.cpp`); the trie implementation
itself (`ztrie.c`) is not part of the source tree.  The trie operations below
are therefore modelled from the specification (`spec.md` §3, §4), which fixes
the data model, tokenization, insertion, removal, and the backtracking matcher
with Literal > Parameter > Asterisk precedence.  The QML wrapper functions are
translated directly from `QmlZtrie.cpp`.
-/

namespace Ztrie

/-- Modelled from the spec: the kind of a trie node, one of
Literal, Parameter, Asterisk (spec §3, "kind"). -/
inductive Ty : Type where
  | literal : Ty
  | param : Ty
  | asterisk : Ty
deriving DecidableEq, Repr

/-- Modelled from the spec: a route payload.  The C payload is an opaque
`void *` plus an optional destructor callback; we model the payload by an
identifier `val` and record by `hasDtor` whether a destructor was supplied
(spec §3, "data"/"destructor"). -/
structure Payload : Type where
  val : Nat
  hasDtor : Bool
deriving DecidableEq, Repr

/-- Modelled from the spec: a classified path segment: its kind, its token
(literal text, parameter name, or the wildcard marker) and, for parameter
segments, the optional constraint pattern (spec §4.1). -/
structure Seg : Type where
  kind : Ty
  token : String
  pattern : Option String
deriving DecidableEq, Repr

/-- Modelled from the spec: a trie node — kind, token, optional constraint
pattern, children, and optional attached payload (spec §3, TrieNode).
`ztrie.c` is not in the source tree, so the structure follows spec §3. -/
inductive Node : Type where
  | mk (kind : Ty) (token : String) (pattern : Option String)
       (children : List Node) (data : Option Payload) : Node
deriving Repr

def Node.kind : Node → Ty
  | .mk k _ _ _ _ => k

def Node.token : Node → String
  | .mk _ t _ _ _ => t

def Node.pattern : Node → Option String
  | .mk _ _ p _ _ => p

def Node.children : Node → List Node
  | .mk _ _ _ cs _ => cs

def Node.data : Node → Option Payload
  | .mk _ _ _ _ d => d

/-- Replace the children of a node. -/
def Node.withChildren : Node → List Node → Node
  | .mk k t p _ d, cs => .mk k t p cs d

/-- Replace the data slot of a node. -/
def Node.withData : Node → Option Payload → Node
  | .mk k t p cs _, d => .mk k t p cs d

/-- Modelled from the spec: the result of a successful match — the hit
node's payload, the parameter captures along the winning path (shallowest
first), and the Asterisk capture if the path ended in an Asterisk node
(spec §3, "last_match"). -/
structure MatchRes : Type where
  data : Payload
  caps : List (String × String)
  star : Option String
deriving DecidableEq, Repr

/-- Modelled from the spec: the trie — delimiter, root node, and the
transient last-match state (spec §3, Trie). -/
structure Trie : Type where
  delim : Char
  root : Node
  last : Option MatchRes

/-! ### Tokenization (spec §4.1: split on the delimiter, discard empty
leading/trailing segments) -/

/-- Split a character list on the delimiter character. -/
def splitChars (d : Char) : List Char → List (List Char)
  | [] => [[]]
  | c :: cs =>
    match splitChars d cs with
    | [] => [[]]
    | g :: gs => if c = d then [] :: g :: gs else (c :: g) :: gs

/-- Drop one empty leading segment, as produced by a leading delimiter. -/
def dropLeadEmpty : List String → List String
  | "" :: rest => rest
  | l => l

/-- Modelled from the spec: tokenize a path on the delimiter into an ordered
sequence of segments, discarding empty leading/trailing segments produced by
a leading/trailing delimiter (spec §4.1). -/
def tokenize (d : Char) (path : String) : List String :=
  let raw := (splitChars d path.data).map (fun l => String.mk l)
  (dropLeadEmpty (dropLeadEmpty raw.reverse).reverse)

/-- Modelled from the spec: classify one segment.  A segment that is exactly
the wildcard marker `*` is Asterisk; a segment beginning with the parameter
sigil `:` is Parameter, its name running to the next `:` which, if present,
separates the optional constraint pattern; anything else is Literal
(spec §4.1; the spec leaves the concrete sigils open, we use its examples
`:name` and `*`). -/
def parseSeg (s : String) : Seg :=
  if s = "*" then ⟨Ty.asterisk, "*", none⟩
  else
    match s.data with
    | [] => ⟨Ty.literal, s, none⟩
    | c :: rest =>
      if c = ':' then
        ⟨Ty.param, String.mk (rest.takeWhile (fun ch => ch ≠ ':')),
          if (rest.dropWhile (fun ch => ch ≠ ':')).isEmpty then none
          else some (String.mk (rest.dropWhile (fun ch => ch ≠ ':')).tail)⟩
      else ⟨Ty.literal, s, none⟩

/-- Join segments with the delimiter string (used for the Asterisk capture,
spec §4.2: "all not-yet-consumed segments, rejoined with the delimiter"). -/
def joinDelim (d : String) : List String → String
  | [] => ""
  | [s] => s
  | s :: rest => s ++ d ++ joinDelim d rest

/-! ### Child lookup -/

/-- Does a child node match a literal token? -/
def isLit (tok : String) (c : Node) : Bool :=
  c.kind == Ty.literal && c.token == tok

/-- Does a child node have the given kind? -/
def isKind (k : Ty) (c : Node) : Bool :=
  c.kind == k

/-- Modelled from the spec: the dedup key used by insertion — a Literal child
matches by `(kind, token)`, while Parameter and Asterisk children match by
kind alone ("one Parameter child per node", spec §4.1). -/
def keyMatch (s : Seg) (c : Node) : Bool :=
  match s.kind with
  | Ty.literal => isLit s.token c
  | Ty.param => isKind Ty.param c
  | Ty.asterisk => isKind Ty.asterisk c

/-- Split a list at the first element satisfying `p`:
returns (prefix that fails `p`, the hit, the suffix). -/
def extract (p : Node → Bool) : List Node → Option (List Node × Node × List Node)
  | [] => none
  | c :: cs =>
    if p c then some ([], c, cs)
    else
      match extract p cs with
      | some (b, x, a) => some (c :: b, x, a)
      | none => none

/-- A fresh node for a segment: no children, no data. -/
def mkNode (s : Seg) : Node :=
  .mk s.kind s.token s.pattern [] none

/-! ### Insertion (spec §4.1) -/

/-- Modelled from the spec: walk from a node along the classified segments,
reusing a child with a matching `(kind, token)` key or creating one; at the
terminal node fail (`none`) if data is already set, otherwise attach the
payload (spec §4.1, insert_route). -/
def insertSegs (pay : Payload) : List Seg → Node → Option Node
  | [], n =>
    match n.data with
    | some _ => none
    | none => some (n.withData (some pay))
  | s :: rest, n =>
    match extract (keyMatch s) n.children with
    | some (b, c, a) =>
      match insertSegs pay rest c with
      | some c' => some (n.withChildren (b ++ c' :: a))
      | none => none
    | none =>
      match insertSegs pay rest (mkNode s) with
      | some c' => some (n.withChildren (n.children ++ [c']))
      | none => none

/-- Modelled from the spec: an Asterisk segment must be the last segment of a
route (spec §4.1; malformed routes are rejected at insert time). -/
def wellFormedSegs (segs : List Seg) : Bool :=
  segs.dropLast.all (fun s => s.kind != Ty.asterisk)

/-- Modelled from the spec: create a trie with the given delimiter; the root
carries no data (spec §3, ztrie_new). -/
def ztrie_new (d : Char) : Trie :=
  ⟨d, .mk Ty.literal "" none [] none, none⟩

/-- Modelled from the spec: insert a route.  Returns `-1` and the unchanged
trie if the route already exists (or the path is malformed, folded into the
same failure, spec §4.1/§7), otherwise `0` and the extended trie
(`ztrie_insert_route` of ztrie.h; the implementation is absent from src). -/
def ztrie_insert_route (t : Trie) (path : String) (pay : Payload) : Int × Trie :=
  let segs := (tokenize t.delim path).map parseSeg
  if wellFormedSegs segs then
    match insertSegs pay segs t.root with
    | some r => (0, { t with root := r })
    | none => (-1, t)
  else (-1, t)

/-! ### Removal (spec §4.1) -/

/-- Modelled from the spec: walk the exact token sequence (same keys as
insertion, no backtracking); fail if the terminal node is missing or has no
data, otherwise clear the slot and return the removed payload
(spec §4.1, remove_route). -/
def removeSegs : List Seg → Node → Option (Node × Payload)
  | [], n =>
    match n.data with
    | some p => some (n.withData none, p)
    | none => none
  | s :: rest, n =>
    match extract (keyMatch s) n.children with
    | some (b, c, a) =>
      match removeSegs rest c with
      | some (c', p) => some (n.withChildren (b ++ c' :: a), p)
      | none => none
    | none => none

/-- Modelled from the spec: remove a route.  Returns `-1` (and no destructor
event) when the exact token sequence is absent or carries no data; otherwise
returns `0`, the updated trie, and the destructor invocation event for the
removed payload if it owned one (`ztrie_remove_route` of ztrie.h; the
implementation is absent from src). -/
def ztrie_remove_route (t : Trie) (path : String) : Int × Trie × List Nat :=
  let segs := (tokenize t.delim path).map parseSeg
  match removeSegs segs t.root with
  | some (r, p) => (0, { t with root := r }, if p.hasDtor then [p.val] else [])
  | none => (-1, t, [])

/-! ### Matching (spec §4.2) -/

/-- Modelled from the spec: a Parameter node accepts a segment if its
constraint pattern (an opaque expression evaluated by the external matcher
`pm`) accepts it; with no pattern any non-empty segment matches (spec §4.2). -/
def paramOk (pm : String → String → Bool) (c : Node) (s : String) : Bool :=
  match c.pattern with
  | none => s != ""
  | some pat => pm pat s

/-- First-success choice between two match attempts. -/
def orElseO (a b : Option MatchRes) : Option MatchRes :=
  match a with
  | some r => some r
  | none => b

/-- Modelled from the spec: the depth-first backtracking walk (spec §4.2).
At each node, with a segment to consume: try the Literal child whose token
equals the segment first; if that subtree fails, try the Parameter child,
validating the segment against its pattern and recording the capture; last,
try the Asterisk child, which consumes the remaining segments rejoined with
the delimiter and succeeds iff it carries data.  With no segments left the
walk succeeds iff the current node carries data. -/
def nodeMatch (pm : String → String → Bool) (delim : String) :
    List String → Node → Option MatchRes
  | [], n => n.data.map (fun d => ⟨d, [], none⟩)
  | s :: rest, n =>
    orElseO
      (match List.find? (isLit s) n.children with
       | some c => nodeMatch pm delim rest c
       | none => none)
      (orElseO
        (match List.find? (isKind Ty.param) n.children with
         | some c =>
           if paramOk pm c s then
             (nodeMatch pm delim rest c).map
               (fun r => ⟨r.data, (c.token, s) :: r.caps, r.star⟩)
           else none
         | none => none)
        (match List.find? (isKind Ty.asterisk) n.children with
         | some c => c.data.map (fun d => ⟨d, [], some (joinDelim delim (s :: rest))⟩)
         | none => none))

/-- Modelled from the spec: `ztrie_matches` — tokenize, run the backtracking
walk from the root; on success store the match as `last_match` and return
true, on failure clear `last_match` entirely and return false (spec §4.2).
`pm` is the external constraint-pattern matcher (spec §6). -/
def ztrie_matches (pm : String → String → Bool) (t : Trie) (path : String) :
    Bool × Trie :=
  match nodeMatch pm (String.mk [t.delim]) (tokenize t.delim path) t.root with
  | some r => (true, { t with last := some r })
  | none => (false, { t with last := none })

/-! ### Last-match accessors (spec §4.2) -/

/-- Insert a binding, overwriting an existing one with the same name. -/
def insertOver (m : List (String × String)) (k v : String) : List (String × String) :=
  match m with
  | [] => [(k, v)]
  | (k', v') :: rest => if k' == k then (k, v) :: rest else (k', v') :: insertOver rest k v

/-- Modelled from the spec: the capture set of a match — deeper captures of
the same name overwrite shallower ones (spec §4.2). -/
def capMap (caps : List (String × String)) : List (String × String) :=
  caps.foldl (fun m kv => insertOver m kv.1 kv.2) []

/-- Modelled from the spec: the payload of the last match, or none if the
last `matches` failed (`ztrie_hit_data` of ztrie.h). -/
def ztrie_hit_data (t : Trie) : Option Payload :=
  t.last.map (fun r => r.data)

/-- Modelled from the spec: the number of entries of the last match's capture
set, 0 with no match (`ztrie_hit_parameter_count` of ztrie.h). -/
def ztrie_hit_parameter_count (t : Trie) : Nat :=
  match t.last with
  | some r => (capMap r.caps).length
  | none => 0

/-- Modelled from the spec: the capture set of the last match as a fresh
name-to-text mapping, empty with no match (`ztrie_hit_parameters` of
ztrie.h; spec §4.2). -/
def ztrie_hit_parameters (t : Trie) : List (String × String) :=
  match t.last with
  | some r => capMap r.caps
  | none => []

/-- Modelled from the spec: the Asterisk capture of the last match, or none
(`ztrie_hit_asterisk_match` of ztrie.h). -/
def ztrie_hit_asterisk_match (t : Trie) : Option String :=
  t.last.bind (fun r => r.star)

/-! ### Destruction and payload-ownership events (spec §3 lifecycle, §6) -/

/-- All payloads attached in a subtree, children first. -/
def Node.datas : Node → List Payload
  | .mk _ _ _ cs d =>
    (cs.attach.map (fun c => Node.datas c.1)).flatten ++
      (match d with | some p => [p] | none => [])
decreasing_by
  have := List.sizeOf_lt_of_mem c.2
  simp only [Node.mk.sizeOf_spec]
  omega

/-- The destructor invocations for a list of payloads: one event per payload
that owns a destructor. -/
def dtorEvents (l : List Payload) : List Nat :=
  l.filterMap (fun p => if p.hasDtor then some p.val else none)

/-- Modelled from the spec: trie destruction destroys every owned node
bottom-up, invoking each node's destructor on its data if set (spec §3
lifecycle; `ztrie_destroy` of ztrie.h).  Returns the destructor events. -/
def ztrie_destroy (t : Trie) : List Nat :=
  dtorEvents t.root.datas

/-- A mutating operation on the trie: insert a route (payload id and
whether a destructor is supplied) or remove a route. -/
inductive Op : Type where
  | ins (path : String) (val : Nat) (hd : Bool) : Op
  | rem (path : String) : Op

/-- Apply one operation; return the new trie and the destructor events the
operation emitted. -/
def applyOp (t : Trie) : Op → Trie × List Nat
  | .ins p v d => ((ztrie_insert_route t p ⟨v, d⟩).2, [])
  | .rem p =>
    let r := ztrie_remove_route t p
    (r.2.1, r.2.2)

/-- Run a sequence of operations, collecting all destructor events. -/
def runOps (t : Trie) : List Op → Trie × List Nat
  | [] => (t, [])
  | op :: ops =>
    let r := applyOp t op
    let rest := runOps r.1 ops
    (rest.1, r.2 ++ rest.2)

/-- The payloads an operation list tries to insert, in order. -/
def insPayloads : List Op → List Payload
  | [] => []
  | Op.ins _ v d :: ops => ⟨v, d⟩ :: insPayloads ops
  | Op.rem _ :: ops => insPayloads ops

/-- The payload attached at this node, as a list (empty when none). -/
def ownData (n : Node) : List Payload :=
  match n.data with
  | some q => [q]
  | none => []

/-- Every token of the path classifies as a Literal segment. -/
def pathIsLiteral (d : Char) (p : String) : Bool :=
  (tokenize d p).all (fun s => (parseSeg s).kind == Ty.literal)

/-! ### The QML wrapper (translated from
`src/ocamlczmq/czmq/bindings/qml/src/QmlZtrie.cpp`) -/

/-- The `path.toUtf8().data()` marshalling of `QmlZtrie.cpp`: the byte string
handed to the C API carries the same text as the QString, so at the level of
text it is the identity. -/
def qstringToUtf8 (s : String) : String := s

/-- The `QString(const char *)` constructor used by `hitAsteriskMatch`:
a NULL pointer yields the null QString, any other pointer yields its text
(an empty C string stays a non-null empty QString). -/
def qstringOfCStr : Option String → Option String
  | none => none
  | some s => some s

/-- `QmlZtrie::insertRoute` from QmlZtrie.cpp: forwards to
`ztrie_insert_route` on the UTF-8 encoding of the path. -/
def QmlZtrie_insertRoute (t : Trie) (path : String) (pay : Payload) : Int × Trie :=
  ztrie_insert_route t (qstringToUtf8 path) pay

/-- `QmlZtrie::removeRoute` from QmlZtrie.cpp: forwards to
`ztrie_remove_route` on the UTF-8 encoding of the path. -/
def QmlZtrie_removeRoute (t : Trie) (path : String) : Int × Trie × List Nat :=
  ztrie_remove_route t (qstringToUtf8 path)

/-- `QmlZtrie::matches` from QmlZtrie.cpp: forwards to `ztrie_matches` on
the UTF-8 encoding of the path. -/
def QmlZtrie_matches (pm : String → String → Bool) (t : Trie) (path : String) :
    Bool × Trie :=
  ztrie_matches pm t (qstringToUtf8 path)

/-- `QmlZtrie::hitData` from QmlZtrie.cpp: forwards to `ztrie_hit_data`. -/
def QmlZtrie_hitData (t : Trie) : Option Payload :=
  ztrie_hit_data t

/-- `QmlZtrie::hitParameterCount` from QmlZtrie.cpp: forwards to
`ztrie_hit_parameter_count`. -/
def QmlZtrie_hitParameterCount (t : Trie) : Nat :=
  ztrie_hit_parameter_count t

/-- `QmlZtrie::hitParameters` from QmlZtrie.cpp: wraps the hash returned by
`ztrie_hit_parameters` in a fresh QmlZhashx object; the carried mapping is
unchanged. -/
def QmlZtrie_hitParameters (t : Trie) : List (String × String) :=
  ztrie_hit_parameters t

/-- `QmlZtrie::hitAsteriskMatch` from QmlZtrie.cpp: returns
`QString (ztrie_hit_asterisk_match (self))`. -/
def QmlZtrie_hitAsteriskMatch (t : Trie) : Option String :=
  qstringOfCStr (ztrie_hit_asterisk_match t)

/-! ## Helper lemmas -/

@[simp] theorem Node.kind_mk (k t p cs d) : (Node.mk k t p cs d).kind = k := rfl

@[simp] theorem Node.token_mk (k t p cs d) : (Node.mk k t p cs d).token = t := rfl

@[simp] theorem Node.pattern_mk (k t p cs d) : (Node.mk k t p cs d).pattern = p := rfl

@[simp] theorem Node.children_mk (k t p cs d) : (Node.mk k t p cs d).children = cs := rfl

@[simp] theorem Node.data_mk (k t p cs d) : (Node.mk k t p cs d).data = d := rfl

@[simp] theorem Node.kind_withChildren (n : Node) (cs) : (n.withChildren cs).kind = n.kind := by
  cases n; rfl

@[simp] theorem Node.token_withChildren (n : Node) (cs) : (n.withChildren cs).token = n.token := by
  cases n; rfl

@[simp] theorem Node.pattern_withChildren (n : Node) (cs) :
    (n.withChildren cs).pattern = n.pattern := by
  cases n; rfl

@[simp] theorem Node.children_withChildren (n : Node) (cs) :
    (n.withChildren cs).children = cs := by
  cases n; rfl

@[simp] theorem Node.data_withChildren (n : Node) (cs) : (n.withChildren cs).data = n.data := by
  cases n; rfl

@[simp] theorem Node.kind_withData (n : Node) (d) : (n.withData d).kind = n.kind := by
  cases n; rfl

@[simp] theorem Node.token_withData (n : Node) (d) : (n.withData d).token = n.token := by
  cases n; rfl

@[simp] theorem Node.pattern_withData (n : Node) (d) : (n.withData d).pattern = n.pattern := by
  cases n; rfl

@[simp] theorem Node.children_withData (n : Node) (d) : (n.withData d).children = n.children := by
  cases n; rfl

@[simp] theorem Node.data_withData (n : Node) (d) : (n.withData d).data = d := by
  cases n; rfl

theorem extract_eq_some {p : Node → Bool} :
    ∀ {cs b x a}, extract p cs = some (b, x, a) →
      cs = b ++ x :: a ∧ (∀ y ∈ b, p y = false) ∧ p x = true := by
  intro cs
  induction cs with
  | nil => intro b x a h; simp [extract] at h
  | cons c cs ih =>
    intro b x a h
    by_cases hc : p c
    · simp [extract, hc] at h
      obtain ⟨hb, hx, ha⟩ := h
      subst hb; subst hx; subst ha
      exact ⟨rfl, by intro y hy; simp at hy, hc⟩
    · simp [extract, hc] at h
      cases hrec : extract p cs with
      | none => rw [hrec] at h; simp at h
      | some v =>
        obtain ⟨b', x', a'⟩ := v
        rw [hrec] at h
        simp at h
        obtain ⟨hb, hx, ha⟩ := h
        obtain ⟨hcs, hfail, hhit⟩ := ih hrec
        subst hb; subst hx; subst ha
        refine ⟨by simp [hcs], ?_, hhit⟩
        intro y hy
        rcases List.mem_cons.mp hy with h1 | h2
        · subst h1; exact Bool.of_not_eq_true hc
        · exact hfail y h2

theorem extract_eq_none {p : Node → Bool} :
    ∀ {cs}, extract p cs = none → ∀ y ∈ cs, p y = false := by
  intro cs
  induction cs with
  | nil => intro _ y hy; simp at hy
  | cons c cs ih =>
    intro h y hy
    by_cases hc : p c
    · simp [extract, hc] at h
    · simp [extract, hc] at h
      cases hrec : extract p cs with
      | none =>
        rcases List.mem_cons.mp hy with h1 | h2
        · subst h1; exact Bool.of_not_eq_true hc
        · exact ih hrec y h2
      | some v => rw [hrec] at h; simp at h

theorem extract_middle {p : Node → Bool} :
    ∀ {b : List Node} {x a}, (∀ y ∈ b, p y = false) → p x = true →
      extract p (b ++ x :: a) = some (b, x, a) := by
  intro b
  induction b with
  | nil => intro x a _ hx; simp [extract, hx]
  | cons c b ih =>
    intro x a hfail hx
    have hc : p c = false := hfail c (by simp)
    have hstep : (c :: b) ++ x :: a = c :: (b ++ x :: a) := rfl
    rw [hstep]
    simp only [extract, hc]
    rw [ih (fun y hy => hfail y (by simp [hy])) hx]
    simp

theorem find?_middle {q : Node → Bool} :
    ∀ {b : List Node} {x a}, (∀ y ∈ b, q y = false) → q x = true →
      List.find? q (b ++ x :: a) = some x := by
  intro b
  induction b with
  | nil => intro x a _ hx; simp [List.find?, hx]
  | cons c b ih =>
    intro x a hfail hx
    have hc : q c = false := hfail c (by simp)
    simp only [List.cons_append, List.find?, hc]
    exact ih (fun y hy => hfail y (by simp [hy])) hx

theorem insertSegs_preserves {pay : Payload} :
    ∀ {segs : List Seg} {n n' : Node}, insertSegs pay segs n = some n' →
      n'.kind = n.kind ∧ n'.token = n.token ∧ n'.pattern = n.pattern := by
  intro segs n n' h
  cases segs with
  | nil =>
    cases hd : n.data with
    | some q => simp [insertSegs, hd] at h
    | none => simp [insertSegs, hd] at h; subst h; simp
  | cons s rest =>
    cases hx : extract (keyMatch s) n.children with
    | some v =>
      obtain ⟨b, c, a⟩ := v
      cases hi : insertSegs pay rest c with
      | some c' =>
        simp only [insertSegs, hx, hi] at h
        cases h; simp
      | none =>
        simp only [insertSegs, hx, hi] at h
        exact Option.noConfusion h
    | none =>
      cases hi : insertSegs pay rest (mkNode s) with
      | some c' =>
        simp only [insertSegs, hx, hi] at h
        cases h; simp
      | none =>
        simp only [insertSegs, hx, hi] at h
        exact Option.noConfusion h

theorem removeSegs_preserves :
    ∀ {segs : List Seg} {n n' : Node} {q}, removeSegs segs n = some (n', q) →
      n'.kind = n.kind ∧ n'.token = n.token ∧ n'.pattern = n.pattern := by
  intro segs n n' q h
  cases segs with
  | nil =>
    cases hd : n.data with
    | some r => simp [removeSegs, hd] at h; obtain ⟨h1, _⟩ := h; subst h1; simp
    | none => simp [removeSegs, hd] at h
  | cons s rest =>
    cases hx : extract (keyMatch s) n.children with
    | some v =>
      obtain ⟨b, c, a⟩ := v
      cases hi : removeSegs rest c with
      | some v' =>
        obtain ⟨c', q'⟩ := v'
        simp only [removeSegs, hx, hi] at h
        cases h; simp
      | none =>
        simp only [removeSegs, hx, hi] at h
        exact Option.noConfusion h
    | none =>
      simp only [removeSegs, hx] at h
      exact Option.noConfusion h

theorem keyMatch_congr (s : Seg) {c c' : Node}
    (hk : c'.kind = c.kind) (ht : c'.token = c.token) :
    keyMatch s c' = keyMatch s c := by
  obtain ⟨k, tok, pat⟩ := s
  cases k <;> simp [keyMatch, isLit, isKind, hk, ht]

theorem keyMatch_mkNode (s : Seg) : keyMatch s (mkNode s) = true := by
  obtain ⟨k, tok, pat⟩ := s
  cases k <;> simp [keyMatch, isLit, isKind, mkNode]

theorem keyMatch_of_lit {s : Seg} (hs : s.kind = Ty.literal) (c : Node) :
    keyMatch s c = isLit s.token c := by
  obtain ⟨k, tok, pat⟩ := s
  simp only [Seg.kind] at hs
  subst hs
  rfl

theorem insertSegs_nodeMatch_lit (pm : String → String → Bool) (delim : String)
    (pay : Payload) :
    ∀ (segs : List Seg) (n n' : Node), (∀ s ∈ segs, s.kind = Ty.literal) →
      insertSegs pay segs n = some n' →
      nodeMatch pm delim (segs.map Seg.token) n' = some ⟨pay, [], none⟩ := by
  intro segs
  induction segs with
  | nil =>
    intro n n' _ h
    cases hd : n.data with
    | some q => simp [insertSegs, hd] at h
    | none =>
      simp only [insertSegs, hd] at h
      cases h
      simp [nodeMatch]
  | cons s rest ih =>
    intro n n' hlit h
    have hs : s.kind = Ty.literal := hlit s (by simp)
    have hrest : ∀ x ∈ rest, x.kind = Ty.literal := fun x hx => hlit x (by simp [hx])
    cases hx : extract (keyMatch s) n.children with
    | some v =>
      obtain ⟨b, c, a⟩ := v
      cases hi : insertSegs pay rest c with
      | some c' =>
        simp only [insertSegs, hx, hi] at h
        cases h
        obtain ⟨hcs, hfail, hhit⟩ := extract_eq_some hx
        obtain ⟨hk, ht, _⟩ := insertSegs_preserves hi
        have hfind : List.find? (isLit s.token) (b ++ c' :: a) = some c' := by
          apply find?_middle
          · intro y hy
            rw [← keyMatch_of_lit hs]
            exact hfail y hy
          · rw [← keyMatch_of_lit hs, keyMatch_congr s hk ht]
            exact hhit
        have hm := ih c c' hrest hi
        simp only [List.map_cons, nodeMatch, Node.children_withChildren, hfind, hm, orElseO]
      | none =>
        simp only [insertSegs, hx, hi] at h
        exact Option.noConfusion h
    | none =>
      cases hi : insertSegs pay rest (mkNode s) with
      | some c' =>
        simp only [insertSegs, hx, hi] at h
        cases h
        have hfail := extract_eq_none hx
        obtain ⟨hk, ht, _⟩ := insertSegs_preserves hi
        have hfind : List.find? (isLit s.token) (n.children ++ [c']) = some c' := by
          have h0 : n.children ++ [c'] = n.children ++ c' :: [] := rfl
          rw [h0]
          apply find?_middle
          · intro y hy
            rw [← keyMatch_of_lit hs]
            exact hfail y hy
          · rw [← keyMatch_of_lit hs, keyMatch_congr s hk ht, keyMatch_mkNode]
        have hm := ih (mkNode s) c' hrest hi
        simp only [List.map_cons, nodeMatch, Node.children_withChildren, hfind, hm, orElseO]
      | none =>
        simp only [insertSegs, hx, hi] at h
        exact Option.noConfusion h

theorem insertSegs_again_none {pay pay2 : Payload} :
    ∀ {segs : List Seg} {n n' : Node}, insertSegs pay segs n = some n' →
      insertSegs pay2 segs n' = none := by
  intro segs
  induction segs with
  | nil =>
    intro n n' h
    cases hd : n.data with
    | some q => simp [insertSegs, hd] at h
    | none =>
      simp only [insertSegs, hd] at h
      cases h
      simp [insertSegs]
  | cons s rest ih =>
    intro n n' h
    cases hx : extract (keyMatch s) n.children with
    | some v =>
      obtain ⟨b, c, a⟩ := v
      cases hi : insertSegs pay rest c with
      | some c' =>
        simp only [insertSegs, hx, hi] at h
        cases h
        obtain ⟨hcs, hfail, hhit⟩ := extract_eq_some hx
        obtain ⟨hk, ht, _⟩ := insertSegs_preserves hi
        have hex : extract (keyMatch s) (b ++ c' :: a) = some (b, c', a) :=
          extract_middle hfail (by rw [keyMatch_congr s hk ht]; exact hhit)
        simp only [insertSegs, Node.children_withChildren, hex, ih hi]
      | none =>
        simp only [insertSegs, hx, hi] at h
        exact Option.noConfusion h
    | none =>
      cases hi : insertSegs pay rest (mkNode s) with
      | some c' =>
        simp only [insertSegs, hx, hi] at h
        cases h
        have hfail := extract_eq_none hx
        obtain ⟨hk, ht, _⟩ := insertSegs_preserves hi
        have hex : extract (keyMatch s) (n.children ++ [c']) = some (n.children, c', []) := by
          have h0 : n.children ++ [c'] = n.children ++ c' :: [] := rfl
          rw [h0]
          exact extract_middle hfail (by rw [keyMatch_congr s hk ht, keyMatch_mkNode])
        simp only [insertSegs, Node.children_withChildren, hex, ih hi]
      | none =>
        simp only [insertSegs, hx, hi] at h
        exact Option.noConfusion h

theorem insertSegs_removeSegs {pay : Payload} :
    ∀ {segs : List Seg} {n n' : Node}, insertSegs pay segs n = some n' →
      ∃ n'', removeSegs segs n' = some (n'', pay) := by
  intro segs
  induction segs with
  | nil =>
    intro n n' h
    cases hd : n.data with
    | some q => simp [insertSegs, hd] at h
    | none =>
      simp only [insertSegs, hd] at h
      cases h
      exact ⟨(n.withData (some pay)).withData none, by simp [removeSegs]⟩
  | cons s rest ih =>
    intro n n' h
    cases hx : extract (keyMatch s) n.children with
    | some v =>
      obtain ⟨b, c, a⟩ := v
      cases hi : insertSegs pay rest c with
      | some c' =>
        simp only [insertSegs, hx, hi] at h
        cases h
        obtain ⟨hcs, hfail, hhit⟩ := extract_eq_some hx
        obtain ⟨hk, ht, _⟩ := insertSegs_preserves hi
        have hex : extract (keyMatch s) (b ++ c' :: a) = some (b, c', a) :=
          extract_middle hfail (by rw [keyMatch_congr s hk ht]; exact hhit)
        obtain ⟨c'', hrem⟩ := ih hi
        exact ⟨(n.withChildren (b ++ c' :: a)).withChildren (b ++ c'' :: a),
          by simp only [removeSegs, Node.children_withChildren, hex, hrem]⟩
      | none =>
        simp only [insertSegs, hx, hi] at h
        exact Option.noConfusion h
    | none =>
      cases hi : insertSegs pay rest (mkNode s) with
      | some c' =>
        simp only [insertSegs, hx, hi] at h
        cases h
        have hfail := extract_eq_none hx
        obtain ⟨hk, ht, _⟩ := insertSegs_preserves hi
        have hex : extract (keyMatch s) (n.children ++ [c']) = some (n.children, c', []) := by
          have h0 : n.children ++ [c'] = n.children ++ c' :: [] := rfl
          rw [h0]
          exact extract_middle hfail (by rw [keyMatch_congr s hk ht, keyMatch_mkNode])
        obtain ⟨c'', hrem⟩ := ih hi
        exact ⟨(n.withChildren (n.children ++ [c'])).withChildren (n.children ++ c'' :: []),
          by simp only [removeSegs, Node.children_withChildren, hex, hrem]⟩
      | none =>
        simp only [insertSegs, hx, hi] at h
        exact Option.noConfusion h

theorem removeSegs_again_none :
    ∀ {segs : List Seg} {n n' : Node} {q}, removeSegs segs n = some (n', q) →
      removeSegs segs n' = none := by
  intro segs
  induction segs with
  | nil =>
    intro n n' q h
    cases hd : n.data with
    | some r =>
      simp only [removeSegs, hd] at h
      cases h
      simp [removeSegs]
    | none =>
      simp only [removeSegs, hd] at h
      exact Option.noConfusion h
  | cons s rest ih =>
    intro n n' q h
    cases hx : extract (keyMatch s) n.children with
    | some v =>
      obtain ⟨b, c, a⟩ := v
      cases hi : removeSegs rest c with
      | some v' =>
        obtain ⟨c', q'⟩ := v'
        simp only [removeSegs, hx, hi] at h
        cases h
        obtain ⟨hcs, hfail, hhit⟩ := extract_eq_some hx
        obtain ⟨hk, ht, _⟩ := removeSegs_preserves hi
        have hex : extract (keyMatch s) (b ++ c' :: a) = some (b, c', a) :=
          extract_middle hfail (by rw [keyMatch_congr s hk ht]; exact hhit)
        simp only [removeSegs, Node.children_withChildren, hex, ih hi]
      | none =>
        simp only [removeSegs, hx, hi] at h
        exact Option.noConfusion h
    | none =>
      simp only [removeSegs, hx] at h
      exact Option.noConfusion h

theorem Node.datas_mk (k t p cs d) :
    Node.datas (Node.mk k t p cs d) = (cs.map Node.datas).flatten ++
      (match d with | some q => [q] | none => []) := by
  rw [Node.datas.eq_def]
  simp only [List.attach_map_coe]

theorem ownData_withChildren (n : Node) (cs) : ownData (n.withChildren cs) = ownData n := by
  cases n; rfl

theorem datas_decomp (n : Node) :
    n.datas = (n.children.map Node.datas).flatten ++ ownData n := by
  cases n with
  | mk k t p cs d => rw [Node.datas_mk]; rfl

theorem datas_mkNode (s : Seg) : (mkNode s).datas = [] := by
  simp [mkNode, Node.datas_mk]

theorem datas_withData_some_mset (n : Node) (q : Payload) (h : n.data = none) :
    (((n.withData (some q)).datas : List Payload) : Multiset Payload) = q ::ₘ ↑n.datas := by
  cases n with
  | mk k t p cs d =>
    simp only [Node.data_mk] at h
    subst h
    simp only [Node.withData, Node.datas_mk, List.append_nil]
    exact Multiset.coe_eq_coe.mpr (List.perm_append_singleton q _)

theorem datas_withData_none_mset (n : Node) (q : Payload) (h : n.data = some q) :
    ((n.datas : List Payload) : Multiset Payload) = q ::ₘ ↑(n.withData none).datas := by
  cases n with
  | mk k t p cs d =>
    simp only [Node.data_mk] at h
    subst h
    simp only [Node.withData, Node.datas_mk, List.append_nil]
    exact Multiset.coe_eq_coe.mpr (List.perm_append_singleton q _)

theorem datas_mset_split (n : Node) {b a : List Node} {c : Node}
    (hcs : n.children = b ++ c :: a) :
    ((n.datas : List Payload) : Multiset Payload) =
      ↑c.datas + (↑(b.map Node.datas).flatten + ↑(a.map Node.datas).flatten + ↑(ownData n)) := by
  cases n with
  | mk k t p cs d =>
    simp only [Node.children_mk] at hcs
    subst hcs
    have hod : ownData (Node.mk k t p (b ++ c :: a) d) =
        (match d with | some q => [q] | none => []) := rfl
    rw [Node.datas_mk, hod]
    simp only [List.map_append, List.map_cons, List.flatten_append, List.flatten_cons,
      ← Multiset.coe_add]
    abel

theorem insertSegs_datas {pay : Payload} :
    ∀ {segs : List Seg} {n n' : Node}, insertSegs pay segs n = some n' →
      ((n'.datas : List Payload) : Multiset Payload) = pay ::ₘ ↑n.datas := by
  intro segs
  induction segs with
  | nil =>
    intro n n' h
    cases hd : n.data with
    | some q => simp [insertSegs, hd] at h
    | none =>
      simp only [insertSegs, hd] at h
      cases h
      exact datas_withData_some_mset n pay hd
  | cons s rest ih =>
    intro n n' h
    cases hx : extract (keyMatch s) n.children with
    | some v =>
      obtain ⟨b, c, a⟩ := v
      cases hi : insertSegs pay rest c with
      | some c' =>
        simp only [insertSegs, hx, hi] at h
        cases h
        obtain ⟨hcs, _, _⟩ := extract_eq_some hx
        have hsplit' := datas_mset_split (n.withChildren (b ++ c' :: a))
          (b := b) (a := a) (c := c') (by simp)
        have hsplit := datas_mset_split n (b := b) (a := a) (c := c) hcs
        rw [hsplit', ownData_withChildren, ih hi, hsplit, Multiset.cons_add]
      | none =>
        simp only [insertSegs, hx, hi] at h
        exact Option.noConfusion h
    | none =>
      cases hi : insertSegs pay rest (mkNode s) with
      | some c' =>
        simp only [insertSegs, hx, hi] at h
        cases h
        have hc' : ((c'.datas : List Payload) : Multiset Payload) = pay ::ₘ 0 := by
          rw [ih hi, datas_mkNode]
          rfl
        have hsplit' := datas_mset_split (n.withChildren (n.children ++ [c']))
          (b := n.children) (a := []) (c := c') (by simp)
        rw [hsplit', ownData_withChildren, hc', datas_decomp n, Multiset.cons_add]
        simp only [List.map_nil, List.flatten_nil, ← Multiset.coe_add]
        congr 1
        abel
      | none =>
        simp only [insertSegs, hx, hi] at h
        exact Option.noConfusion h

theorem removeSegs_datas :
    ∀ {segs : List Seg} {n n' : Node} {q : Payload}, removeSegs segs n = some (n', q) →
      ((n.datas : List Payload) : Multiset Payload) = q ::ₘ ↑n'.datas := by
  intro segs
  induction segs with
  | nil =>
    intro n n' q h
    cases hd : n.data with
    | some r =>
      simp only [removeSegs, hd] at h
      cases h
      exact datas_withData_none_mset n q hd
    | none =>
      simp only [removeSegs, hd] at h
      exact Option.noConfusion h
  | cons s rest ih =>
    intro n n' q h
    cases hx : extract (keyMatch s) n.children with
    | some v =>
      obtain ⟨b, c, a⟩ := v
      cases hi : removeSegs rest c with
      | some v' =>
        obtain ⟨c', q'⟩ := v'
        simp only [removeSegs, hx, hi] at h
        cases h
        obtain ⟨hcs, _, _⟩ := extract_eq_some hx
        have hsplit' := datas_mset_split (n.withChildren (b ++ c' :: a))
          (b := b) (a := a) (c := c') (by simp)
        have hsplit := datas_mset_split n (b := b) (a := a) (c := c) hcs
        rw [hsplit, hsplit', ownData_withChildren, ih hi, Multiset.cons_add]
      | none =>
        simp only [removeSegs, hx, hi] at h
        exact Option.noConfusion h
    | none =>
      simp only [removeSegs, hx] at h
      exact Option.noConfusion h

theorem datas_nil_data {n : Node} (h : n.datas = []) : n.data = none := by
  rw [datas_decomp] at h
  have hod := (List.append_eq_nil.mp h).2
  cases hd : n.data with
  | none => rfl
  | some q =>
    rw [show ownData n = [q] from by simp [ownData, hd]] at hod
    exact List.noConfusion hod

theorem datas_nil_child {n c : Node} (h : n.datas = []) (hc : c ∈ n.children) :
    c.datas = [] := by
  rw [datas_decomp] at h
  have hfl := (List.append_eq_nil.mp h).1
  exact List.flatten_eq_nil_iff.mp hfl c.datas (List.mem_map_of_mem Node.datas hc)

theorem nodeMatch_datas_nil (pm : String → String → Bool) (delim : String) :
    ∀ (segs : List String) (n : Node), n.datas = [] →
      nodeMatch pm delim segs n = none := by
  intro segs
  induction segs with
  | nil =>
    intro n h
    simp [nodeMatch, datas_nil_data h]
  | cons s rest ih =>
    intro n h
    have hlitb : (match List.find? (isLit s) n.children with
        | some c => nodeMatch pm delim rest c
        | none => none) = none := by
      cases hf : List.find? (isLit s) n.children with
      | some c => exact ih c (datas_nil_child h (List.mem_of_find?_eq_some hf))
      | none => rfl
    have hparb : (match List.find? (isKind Ty.param) n.children with
        | some c =>
          if paramOk pm c s then
            (nodeMatch pm delim rest c).map
              (fun r => MatchRes.mk r.data ((c.token, s) :: r.caps) r.star)
          else none
        | none => none) = none := by
      cases hf : List.find? (isKind Ty.param) n.children with
      | some c => simp [ih c (datas_nil_child h (List.mem_of_find?_eq_some hf))]
      | none => rfl
    have hastb : (match List.find? (isKind Ty.asterisk) n.children with
        | some c => c.data.map (fun d => MatchRes.mk d [] (some (joinDelim delim (s :: rest))))
        | none => none) = none := by
      cases hf : List.find? (isKind Ty.asterisk) n.children with
      | some c => simp [datas_nil_data (datas_nil_child h (List.mem_of_find?_eq_some hf))]
      | none => rfl
    rw [nodeMatch, hlitb, hparb, hastb]
    rfl

theorem parseSeg_token_of_lit {x : String} (h : (parseSeg x).kind = Ty.literal) :
    (parseSeg x).token = x := by
  by_cases hstar : x = "*"
  · exfalso
    rw [parseSeg, if_pos hstar] at h
    exact Ty.noConfusion h
  · cases hm : x.data with
    | nil => simp [parseSeg, hstar, hm]
    | cons c rest =>
      by_cases hc : c = ':'
      · exfalso
        subst hc
        rw [parseSeg, if_neg hstar] at h
        simp only [hm, if_true] at h
        exact Ty.noConfusion h
      · simp [parseSeg, hstar, hm, hc]

theorem insert_success_shape {t : Trie} {p : String} {pay : Payload}
    (h : (ztrie_insert_route t p pay).1 = 0) :
    wellFormedSegs ((tokenize t.delim p).map parseSeg) = true ∧
    ∃ r, insertSegs pay ((tokenize t.delim p).map parseSeg) t.root = some r ∧
      (ztrie_insert_route t p pay).2 = { t with root := r } := by
  by_cases hwf : wellFormedSegs ((tokenize t.delim p).map parseSeg) = true
  · cases hi : insertSegs pay ((tokenize t.delim p).map parseSeg) t.root with
    | some r => exact ⟨hwf, r, rfl, by simp [ztrie_insert_route, hwf, hi]⟩
    | none =>
      exfalso
      simp [ztrie_insert_route, hwf, hi] at h
  · exfalso
    simp [ztrie_insert_route, hwf] at h

theorem insert_matches_lit (pm : String → String → Bool) {t : Trie} {p : String}
    {pay : Payload} (hlit : pathIsLiteral t.delim p = true)
    (h : (ztrie_insert_route t p pay).1 = 0) :
    (ztrie_matches pm (ztrie_insert_route t p pay).2 p).1 = true ∧
    ztrie_hit_data (ztrie_matches pm (ztrie_insert_route t p pay).2 p).2 = some pay ∧
    ztrie_hit_parameter_count (ztrie_matches pm (ztrie_insert_route t p pay).2 p).2 = 0 := by
  obtain ⟨hwf, r, hi, ht2⟩ := insert_success_shape h
  have hall : ∀ s ∈ (tokenize t.delim p).map parseSeg, s.kind = Ty.literal := by
    intro s hs
    obtain ⟨x, hx, hps⟩ := List.mem_map.mp hs
    have hb := List.all_eq_true.mp hlit x hx
    rw [← hps]
    exact beq_iff_eq.mp hb
  have hmatch := insertSegs_nodeMatch_lit pm (String.mk [t.delim]) pay
    ((tokenize t.delim p).map parseSeg) t.root r hall hi
  have htok : ((tokenize t.delim p).map parseSeg).map Seg.token = tokenize t.delim p := by
    rw [List.map_map]
    have hcongr : ∀ x ∈ tokenize t.delim p, (Seg.token ∘ parseSeg) x = id x := by
      intro x hx
      have hb := List.all_eq_true.mp hlit x hx
      exact parseSeg_token_of_lit (beq_iff_eq.mp hb)
    rw [List.map_congr_left hcongr, List.map_id]
  rw [htok] at hmatch
  rw [ht2]
  refine ⟨?_, ?_, ?_⟩
  · simp [ztrie_matches, hmatch]
  · simp [ztrie_matches, hmatch, ztrie_hit_data]
  · simp [ztrie_matches, hmatch, ztrie_hit_parameter_count, capMap]

theorem root_datas_new (d : Char) : (ztrie_new d).root.datas = [] := by
  rw [ztrie_new]
  rw [Node.datas_mk]
  rfl

theorem matches_root_datas_nil (pm : String → String → Bool) (t : Trie) (p : String)
    (h : t.root.datas = []) :
    ztrie_matches pm t p = (false, { t with last := none }) := by
  rw [ztrie_matches, nodeMatch_datas_nil pm (String.mk [t.delim]) (tokenize t.delim p) t.root h]

theorem remove_success_shape {t : Trie} {p : String}
    (h : (ztrie_remove_route t p).1 = 0) :
    ∃ r q, removeSegs ((tokenize t.delim p).map parseSeg) t.root = some (r, q) ∧
      (ztrie_remove_route t p).2.1 = { t with root := r } ∧
      (ztrie_remove_route t p).2.2 = (if q.hasDtor then [q.val] else []) := by
  cases hr : removeSegs ((tokenize t.delim p).map parseSeg) t.root with
  | some v =>
    obtain ⟨r, q⟩ := v
    exact ⟨r, q, rfl, by simp [ztrie_remove_route, hr], by simp [ztrie_remove_route, hr]⟩
  | none =>
    exfalso
    simp [ztrie_remove_route, hr] at h

theorem remove_fail_shape {t : Trie} {p : String}
    (h : removeSegs ((tokenize t.delim p).map parseSeg) t.root = none) :
    ztrie_remove_route t p = (-1, t, []) := by
  simp [ztrie_remove_route, h]

theorem dtorEvents_cons (q : Payload) (l : List Payload) :
    dtorEvents (q :: l) = dtorEvents [q] ++ dtorEvents l := by
  cases hq : q.hasDtor <;> simp [dtorEvents, List.filterMap_cons, hq]

theorem dtorEvents_append (l1 l2 : List Payload) :
    dtorEvents (l1 ++ l2) = dtorEvents l1 ++ dtorEvents l2 :=
  List.filterMap_append l1 l2 _

theorem dtorEvents_perm {l l' : List Payload} (h : List.Perm l l') :
    List.Perm (dtorEvents l) (dtorEvents l') :=
  h.filterMap _

theorem destroy_root (t : Trie) (r : Node) :
    ztrie_destroy { t with root := r } = dtorEvents r.datas := rfl

theorem insert_dtors_le (t : Trie) (p : String) (pay : Payload) :
    ((ztrie_destroy (ztrie_insert_route t p pay).2 : List Nat) : Multiset Nat) ≤
      ↑(dtorEvents [pay]) + ↑(ztrie_destroy t) := by
  by_cases hwf : wellFormedSegs ((tokenize t.delim p).map parseSeg) = true
  · cases hi : insertSegs pay ((tokenize t.delim p).map parseSeg) t.root with
    | some r =>
      have h2 : (ztrie_insert_route t p pay).2 = { t with root := r } := by
        simp [ztrie_insert_route, hwf, hi]
      rw [h2, destroy_root]
      have hperm : List.Perm r.datas (pay :: t.root.datas) :=
        Multiset.coe_eq_coe.mp (insertSegs_datas hi)
      rw [Multiset.coe_add]
      apply le_of_eq
      apply Multiset.coe_eq_coe.mpr
      have hp2 := dtorEvents_perm hperm
      rwa [dtorEvents_cons] at hp2
    | none =>
      have h2 : (ztrie_insert_route t p pay).2 = t := by
        simp [ztrie_insert_route, hwf, hi]
      rw [h2]
      exact self_le_add_left _ _
  · have h2 : (ztrie_insert_route t p pay).2 = t := by
      simp [ztrie_insert_route, hwf]
    rw [h2]
    exact self_le_add_left _ _

theorem remove_dtors_eq (t : Trie) (p : String) :
    (((ztrie_remove_route t p).2.2 : List Nat) : Multiset Nat) +
      ↑(ztrie_destroy (ztrie_remove_route t p).2.1) = ↑(ztrie_destroy t) := by
  cases hr : removeSegs ((tokenize t.delim p).map parseSeg) t.root with
  | some v =>
    obtain ⟨r, q⟩ := v
    have h1 : (ztrie_remove_route t p).2.1 = { t with root := r } := by
      simp [ztrie_remove_route, hr]
    have h2 : (ztrie_remove_route t p).2.2 = dtorEvents [q] := by
      cases hq : q.hasDtor <;> simp [ztrie_remove_route, hr, dtorEvents, hq]
    rw [h1, h2, destroy_root]
    have hperm : List.Perm t.root.datas (q :: r.datas) :=
      Multiset.coe_eq_coe.mp (removeSegs_datas hr)
    rw [Multiset.coe_add]
    apply Multiset.coe_eq_coe.mpr
    have hp2 := dtorEvents_perm hperm
    rw [dtorEvents_cons] at hp2
    exact hp2.symm
  | none =>
    rw [remove_fail_shape hr]
    simp

theorem insPayloads_cons (op : Op) (ops : List Op) :
    insPayloads (op :: ops) = insPayloads [op] ++ insPayloads ops := by
  cases op <;> simp [insPayloads]

theorem runOps_cons (t : Trie) (op : Op) (ops : List Op) :
    runOps t (op :: ops) =
      ((runOps (applyOp t op).1 ops).1, (applyOp t op).2 ++ (runOps (applyOp t op).1 ops).2) :=
  rfl

theorem applyOp_dtors (t : Trie) (op : Op) :
    (((applyOp t op).2 : List Nat) : Multiset Nat) + ↑(ztrie_destroy (applyOp t op).1) ≤
      ↑(dtorEvents (insPayloads [op])) + ↑(ztrie_destroy t) := by
  cases op with
  | ins p v hd =>
    have h := insert_dtors_le t p ⟨v, hd⟩
    have hp : insPayloads [Op.ins p v hd] = [Payload.mk v hd] := rfl
    simp only [applyOp, hp]
    simpa using h
  | rem p =>
    have h := remove_dtors_eq t p
    have hp : insPayloads [Op.rem p] = [] := rfl
    simp only [applyOp, hp]
    rw [show dtorEvents [] = ([] : List Nat) from rfl]
    simp only [Multiset.coe_nil, zero_add]
    exact le_of_eq h

theorem runOps_dtors :
    ∀ (ops : List Op) (t : Trie),
      (((runOps t ops).2 : List Nat) : Multiset Nat) + ↑(ztrie_destroy (runOps t ops).1) ≤
        ↑(dtorEvents (insPayloads ops)) + ↑(ztrie_destroy t) := by
  intro ops
  induction ops with
  | nil =>
    intro t
    simp [runOps, insPayloads, dtorEvents]
  | cons op ops ih =>
    intro t
    rw [runOps_cons]
    have h1 := applyOp_dtors t op
    have h2 := ih (applyOp t op).1
    calc (((applyOp t op).2 ++ (runOps (applyOp t op).1 ops).2 : List Nat) : Multiset Nat) +
          ↑(ztrie_destroy (runOps (applyOp t op).1 ops).1)
        = ↑(applyOp t op).2 + (↑(runOps (applyOp t op).1 ops).2 +
            ↑(ztrie_destroy (runOps (applyOp t op).1 ops).1)) := by
          rw [← Multiset.coe_add, add_assoc]
      _ ≤ ↑(applyOp t op).2 + (↑(dtorEvents (insPayloads ops)) +
            ↑(ztrie_destroy (applyOp t op).1)) := add_le_add_left h2 _
      _ = ↑(dtorEvents (insPayloads ops)) + (↑(applyOp t op).2 +
            ↑(ztrie_destroy (applyOp t op).1)) := by abel
      _ ≤ ↑(dtorEvents (insPayloads ops)) + (↑(dtorEvents (insPayloads [op])) +
            ↑(ztrie_destroy t)) := add_le_add_left h1 _
      _ = ↑(dtorEvents (insPayloads (op :: ops))) + ↑(ztrie_destroy t) := by
          conv_rhs => rw [insPayloads_cons, dtorEvents_append, ← Multiset.coe_add]
          abel

theorem dtorEvents_sublist (l : List Payload) :
    List.Sublist (dtorEvents l) (l.map Payload.val) := by
  induction l with
  | nil => simp [dtorEvents]
  | cons q l ih =>
    cases hq : q.hasDtor
    · simp only [dtorEvents, List.filterMap_cons, hq, List.map_cons]
      exact ih.cons _
    · simp only [dtorEvents, List.filterMap_cons, hq, List.map_cons]
      exact ih.cons₂ _

theorem mem_insPayloads {q : Payload} :
    ∀ {ops : List Op}, q ∈ insPayloads ops → ∃ path, Op.ins path q.val q.hasDtor ∈ ops := by
  intro ops
  induction ops with
  | nil => intro h; simp [insPayloads] at h
  | cons op ops ih =>
    intro h
    cases op with
    | ins p v hd =>
      rw [insPayloads] at h
      rcases List.mem_cons.mp h with h1 | h2
      · subst h1
        exact ⟨p, by simp⟩
      · obtain ⟨path, hp⟩ := ih h2
        exact ⟨path, by simp [hp]⟩
    | rem p =>
      rw [insPayloads] at h
      obtain ⟨path, hp⟩ := ih h
      exact ⟨path, by simp [hp]⟩

theorem mem_dtorEvents {v : Nat} {l : List Payload} (h : v ∈ dtorEvents l) :
    ∃ q, q ∈ l ∧ q.hasDtor = true ∧ q.val = v := by
  obtain ⟨q, hq, hf⟩ := List.mem_filterMap.mp h
  by_cases hd : q.hasDtor
  · refine ⟨q, hq, hd, ?_⟩
    rw [if_pos hd] at hf
    exact Option.some.inj hf
  · rw [if_neg hd] at hf
    exact Option.noConfusion hf

/-! ## Claim theorems -/

/-- C1: for every trie and every purely literal path `p` inserted via
`insert_route` with payload `d`, a subsequent `matches(p)` returns true and
`hit_data()` then returns exactly `d`. -/
theorem claim_C1 (pm : String → String → Bool) (t : Trie) (p : String) (pay : Payload)
    (hlit : pathIsLiteral t.delim p = true)
    (hins : (ztrie_insert_route t p pay).1 = 0) :
    (ztrie_matches pm (ztrie_insert_route t p pay).2 p).1 = true ∧
    ztrie_hit_data (ztrie_matches pm (ztrie_insert_route t p pay).2 p).2 = some pay :=
  ⟨(insert_matches_lit pm hlit hins).1, (insert_matches_lit pm hlit hins).2.1⟩

/-- Witness for C1 at the concrete literal path "/a/b" with payload 5. -/
theorem claim_C1_witness :
    pathIsLiteral (ztrie_new '/').delim "/a/b" = true ∧
    (ztrie_insert_route (ztrie_new '/') "/a/b" ⟨5, false⟩).1 = 0 ∧
    ((ztrie_matches (fun _ _ => false)
        (ztrie_insert_route (ztrie_new '/') "/a/b" ⟨5, false⟩).2 "/a/b").1 = true ∧
      ztrie_hit_data (ztrie_matches (fun _ _ => false)
        (ztrie_insert_route (ztrie_new '/') "/a/b" ⟨5, false⟩).2 "/a/b").2 = some ⟨5, false⟩) :=
  ⟨by decide, by decide,
    claim_C1 (fun _ _ => false) (ztrie_new '/') "/a/b" ⟨5, false⟩ (by decide) (by decide)⟩

/-- C2: at each node the Literal child whose token equals the current segment
is tried before the Parameter child, so with routes "/a/b" and "/a/:name"
both inserted, matches("/a/b") hits the literal route's data and records no
parameter capture. -/
theorem claim_C2 :
    (∀ (pm : String → String → Bool) (delim s : String) (rest : List String)
        (n c : Node) (r : MatchRes),
        List.find? (isLit s) n.children = some c →
        nodeMatch pm delim rest c = some r →
        nodeMatch pm delim (s :: rest) n = some r) ∧
    ((ztrie_matches (fun _ _ => false) (ztrie_insert_route
        (ztrie_insert_route (ztrie_new '/') "/a/b" ⟨1, false⟩).2
        "/a/:name" ⟨2, false⟩).2 "/a/b").1 = true ∧
      ztrie_hit_data (ztrie_matches (fun _ _ => false) (ztrie_insert_route
        (ztrie_insert_route (ztrie_new '/') "/a/b" ⟨1, false⟩).2
        "/a/:name" ⟨2, false⟩).2 "/a/b").2 = some ⟨1, false⟩ ∧
      ztrie_hit_parameter_count (ztrie_matches (fun _ _ => false) (ztrie_insert_route
        (ztrie_insert_route (ztrie_new '/') "/a/b" ⟨1, false⟩).2
        "/a/:name" ⟨2, false⟩).2 "/a/b").2 = 0 ∧
      ztrie_hit_parameters (ztrie_matches (fun _ _ => false) (ztrie_insert_route
        (ztrie_insert_route (ztrie_new '/') "/a/b" ⟨1, false⟩).2
        "/a/:name" ⟨2, false⟩).2 "/a/b").2 = []) := by
  constructor
  · intro pm delim s rest n c r hf hm
    simp only [nodeMatch, hf, hm, orElseO]
  · exact ⟨by decide, by decide, by decide, by decide⟩

/-- Witness for C2's generic Literal-first property at a concrete node. -/
theorem claim_C2_witness :
    nodeMatch (fun _ _ => false) "/" ["b"]
      (Node.mk Ty.literal "a" none
        [Node.mk Ty.literal "b" none [] (some ⟨1, false⟩)] none)
      = some ⟨⟨1, false⟩, [], none⟩ :=
  claim_C2.1 (fun _ _ => false) "/" "b" []
    (Node.mk Ty.literal "a" none
      [Node.mk Ty.literal "b" none [] (some ⟨1, false⟩)] none)
    (Node.mk Ty.literal "b" none [] (some ⟨1, false⟩))
    ⟨⟨1, false⟩, [], none⟩ rfl rfl

/-- C3: with routes "/a/:id/x" and "/a/b/y" both inserted, matches("/a/b/y")
returns true with the literal route's data, zero captured parameters and an
empty capture mapping — no capture from the unused parameter branch
survives. -/
theorem claim_C3 :
    (ztrie_matches (fun _ _ => false) (ztrie_insert_route
      (ztrie_insert_route (ztrie_new '/') "/a/:id/x" ⟨1, true⟩).2
      "/a/b/y" ⟨2, true⟩).2 "/a/b/y").1 = true ∧
    ztrie_hit_data (ztrie_matches (fun _ _ => false) (ztrie_insert_route
      (ztrie_insert_route (ztrie_new '/') "/a/:id/x" ⟨1, true⟩).2
      "/a/b/y" ⟨2, true⟩).2 "/a/b/y").2 = some ⟨2, true⟩ ∧
    ztrie_hit_parameter_count (ztrie_matches (fun _ _ => false) (ztrie_insert_route
      (ztrie_insert_route (ztrie_new '/') "/a/:id/x" ⟨1, true⟩).2
      "/a/b/y" ⟨2, true⟩).2 "/a/b/y").2 = 0 ∧
    ztrie_hit_parameters (ztrie_matches (fun _ _ => false) (ztrie_insert_route
      (ztrie_insert_route (ztrie_new '/') "/a/:id/x" ⟨1, true⟩).2
      "/a/b/y" ⟨2, true⟩).2 "/a/b/y").2 = [] :=
  ⟨by decide, by decide, by decide, by decide⟩

/-- C4: an Asterisk child is tried last and captures all not-yet-consumed
segments rejoined with the delimiter; concretely, with route "/files/*"
inserted, matches("/files/a/b/c") succeeds and the asterisk capture is
"a/b/c". -/
theorem claim_C4 :
    (∀ (pm : String → String → Bool) (delim s : String) (rest : List String)
        (n c : Node) (d : Payload),
        List.find? (isLit s) n.children = none →
        List.find? (isKind Ty.param) n.children = none →
        List.find? (isKind Ty.asterisk) n.children = some c →
        c.data = some d →
        nodeMatch pm delim (s :: rest) n
          = some ⟨d, [], some (joinDelim delim (s :: rest))⟩) ∧
    ((ztrie_matches (fun _ _ => false) (ztrie_insert_route
        (ztrie_new '/') "/files/*" ⟨9, false⟩).2 "/files/a/b/c").1 = true ∧
      ztrie_hit_asterisk_match (ztrie_matches (fun _ _ => false) (ztrie_insert_route
        (ztrie_new '/') "/files/*" ⟨9, false⟩).2 "/files/a/b/c").2 = some "a/b/c") := by
  constructor
  · intro pm delim s rest n c d h1 h2 h3 h4
    simp only [nodeMatch, h1, h2, h3, h4, orElseO]
    rfl
  · exact ⟨by decide, by decide⟩

/-- Witness for C4's generic Asterisk-capture property at a concrete node. -/
theorem claim_C4_witness :
    nodeMatch (fun _ _ => false) "/" ["a", "b"]
      (Node.mk Ty.literal "files" none
        [Node.mk Ty.asterisk "*" none [] (some ⟨9, false⟩)] none)
      = some ⟨⟨9, false⟩, [], some (joinDelim "/" ["a", "b"])⟩ :=
  claim_C4.1 (fun _ _ => false) "/" "a" ["b"]
    (Node.mk Ty.literal "files" none
      [Node.mk Ty.asterisk "*" none [] (some ⟨9, false⟩)] none)
    (Node.mk Ty.asterisk "*" none [] (some ⟨9, false⟩))
    ⟨9, false⟩ rfl rfl rfl rfl

/-- C5: insert_route on a path whose terminal node already carries data
returns -1 and leaves the trie literally unchanged, so the stored payload
and destructor survive; for literal paths a later matches still yields the
original payload. -/
theorem claim_C5 (t : Trie) (p : String) (pay1 pay2 : Payload)
    (pm : String → String → Bool)
    (h : (ztrie_insert_route t p pay1).1 = 0) :
    ztrie_insert_route (ztrie_insert_route t p pay1).2 p pay2
      = (-1, (ztrie_insert_route t p pay1).2) ∧
    (pathIsLiteral t.delim p = true →
      (ztrie_matches pm (ztrie_insert_route t p pay1).2 p).1 = true ∧
      ztrie_hit_data (ztrie_matches pm (ztrie_insert_route t p pay1).2 p).2 = some pay1) := by
  obtain ⟨hwf, r, hi, ht2⟩ := insert_success_shape h
  constructor
  · rw [ht2]
    have hnone := @insertSegs_again_none pay1 pay2 _ _ _ hi
    simp [ztrie_insert_route, hwf, hnone]
  · intro hlit
    exact ⟨(insert_matches_lit pm hlit h).1, (insert_matches_lit pm hlit h).2.1⟩

/-- Witness for C5: inserting "/a/b" twice, the second call returns -1 and
the trie is unchanged. -/
theorem claim_C5_witness :
    (ztrie_insert_route (ztrie_new '/') "/a/b" ⟨1, false⟩).1 = 0 ∧
    ztrie_insert_route (ztrie_insert_route (ztrie_new '/') "/a/b" ⟨1, false⟩).2
        "/a/b" ⟨7, false⟩
      = (-1, (ztrie_insert_route (ztrie_new '/') "/a/b" ⟨1, false⟩).2) :=
  ⟨by decide,
    (claim_C5 (ztrie_new '/') "/a/b" ⟨1, false⟩ ⟨7, false⟩ (fun _ _ => false) (by decide)).1⟩

/-- C6 counterexample: with routes "/a/b" and "/a/:x" both inserted,
remove_route("/a/b") succeeds yet matches("/a/b") afterwards still returns
true (the parameter route matches), contradicting the claim that matches(p)
returns false after a successful removal. -/
theorem claim_C6_counterexample :
    (ztrie_remove_route (ztrie_insert_route
      (ztrie_insert_route (ztrie_new '/') "/a/b" ⟨1, false⟩).2
      "/a/:x" ⟨2, false⟩).2 "/a/b").1 = 0 ∧
    (ztrie_matches (fun _ _ => false) (ztrie_remove_route (ztrie_insert_route
      (ztrie_insert_route (ztrie_new '/') "/a/b" ⟨1, false⟩).2
      "/a/:x" ⟨2, false⟩).2 "/a/b").2.1 "/a/b").1 = true :=
  ⟨by decide, by decide⟩

/-- C6 amended: remove_route returns -1 exactly when the walk fails (absent
token sequence or no data), in which case the trie is unchanged and no
destructor runs; on success it emits the destructor event for the removed
payload iff one was attached, a second remove_route of the same path
returns -1, and if the removed route was the trie's only route, matches
subsequently returns false for every path. -/
theorem claim_C6_amended_thm :
    (∀ (t : Trie) (p : String), (ztrie_remove_route t p).1 = 0 ∨
        ztrie_remove_route t p = (-1, t, [])) ∧
    (∀ (t : Trie) (p : String), (ztrie_remove_route t p).1 = 0 →
        (ztrie_remove_route (ztrie_remove_route t p).2.1 p).1 = -1) ∧
    (∀ (pm : String → String → Bool) (d : Char) (p : String) (pay : Payload),
        (ztrie_insert_route (ztrie_new d) p pay).1 = 0 →
        (ztrie_remove_route (ztrie_insert_route (ztrie_new d) p pay).2 p).1 = 0 ∧
        (ztrie_remove_route (ztrie_insert_route (ztrie_new d) p pay).2 p).2.2
          = (if pay.hasDtor then [pay.val] else []) ∧
        (∀ q : String, (ztrie_matches pm
          (ztrie_remove_route (ztrie_insert_route (ztrie_new d) p pay).2 p).2.1 q).1
            = false)) := by
  refine ⟨?_, ?_, ?_⟩
  · intro t p
    cases hr : removeSegs ((tokenize t.delim p).map parseSeg) t.root with
    | some v =>
      left
      obtain ⟨r, q⟩ := v
      simp [ztrie_remove_route, hr]
    | none =>
      right
      exact remove_fail_shape hr
  · intro t p h
    obtain ⟨r, q, hrem, h1, h2⟩ := remove_success_shape h
    rw [h1]
    have hnone := removeSegs_again_none hrem
    simp [ztrie_remove_route, hnone]
  · intro pm d p pay h
    obtain ⟨hwf, r, hi, ht2⟩ := insert_success_shape h
    obtain ⟨r2, hrem⟩ := insertSegs_removeSegs hi
    have hdelim : ((ztrie_new d).delim) = d := rfl
    rw [hdelim] at hi hrem hwf
    have hfirst : (ztrie_remove_route (ztrie_insert_route (ztrie_new d) p pay).2 p).1 = 0 := by
      rw [ht2]
      simp [ztrie_remove_route, ztrie_new, hrem]
    have hsecond : (ztrie_remove_route (ztrie_insert_route (ztrie_new d) p pay).2 p).2.2
        = (if pay.hasDtor then [pay.val] else []) := by
      rw [ht2]
      simp [ztrie_remove_route, ztrie_new, hrem]
    have hshape : (ztrie_remove_route (ztrie_insert_route (ztrie_new d) p pay).2 p).2.1
        = { (ztrie_insert_route (ztrie_new d) p pay).2 with root := r2 } := by
      rw [ht2]
      simp [ztrie_remove_route, ztrie_new, hrem]
    refine ⟨hfirst, hsecond, ?_⟩
    intro q
    have hnil : r2.datas = [] := by
      have hins := insertSegs_datas hi
      have hremd := removeSegs_datas hrem
      rw [root_datas_new d] at hins
      rw [hins] at hremd
      have hz : ((r2.datas : List Payload) : Multiset Payload) = ↑([] : List Payload) := by
        have := (Multiset.cons_inj_right pay).mp hremd
        rw [← this]
      exact (Multiset.coe_eq_coe.mp hz).eq_nil
    have hm := matches_root_datas_nil pm
      ((ztrie_remove_route (ztrie_insert_route (ztrie_new d) p pay).2 p).2.1) q
      (by rw [hshape]; simpa using hnil)
    rw [hm]

/-- Witness for C6's amended claim at the single route "/a" with a
destructor-owning payload. -/
theorem claim_C6_amended_witness :
    (ztrie_insert_route (ztrie_new '/') "/a" ⟨3, true⟩).1 = 0 ∧
    (ztrie_matches (fun _ _ => false) (ztrie_remove_route
      (ztrie_insert_route (ztrie_new '/') "/a" ⟨3, true⟩).2 "/a").2.1 "/a").1 = false :=
  ⟨by decide,
    (claim_C6_amended_thm.2.2 (fun _ _ => false) '/' "/a" ⟨3, true⟩ (by decide)).2.2 "/a"⟩

/-- C7: in the no-match state every accessor returns its empty value; a
fresh trie is in that state, matches on a fresh trie returns false for every
path, and any failed matches call clears last_match entirely. -/
theorem claim_C7 :
    (∀ t : Trie, t.last = none →
        ztrie_hit_data t = none ∧ ztrie_hit_parameter_count t = 0 ∧
        ztrie_hit_parameters t = [] ∧ ztrie_hit_asterisk_match t = none) ∧
    (∀ d : Char, (ztrie_new d).last = none) ∧
    (∀ (pm : String → String → Bool) (t : Trie) (p : String),
        (ztrie_matches pm t p).1 = false → (ztrie_matches pm t p).2.last = none) ∧
    (∀ (pm : String → String → Bool) (d : Char) (p : String),
        ztrie_matches pm (ztrie_new d) p = (false, ztrie_new d)) := by
  refine ⟨?_, ?_, ?_, ?_⟩
  · intro t h
    simp [ztrie_hit_data, ztrie_hit_parameter_count, ztrie_hit_parameters,
      ztrie_hit_asterisk_match, h]
  · intro d
    rfl
  · intro pm t p h
    cases hm : nodeMatch pm (String.mk [t.delim]) (tokenize t.delim p) t.root with
    | some r =>
      exfalso
      simp [ztrie_matches, hm] at h
    | none =>
      simp [ztrie_matches, hm]
  · intro pm d p
    have hm := matches_root_datas_nil pm (ztrie_new d) p (root_datas_new d)
    rw [hm]
    rfl

/-- Witness for C7: the accessors of a fresh trie all return their empty
values. -/
theorem claim_C7_witness :
    ztrie_hit_data (ztrie_new '/') = none ∧
    ztrie_hit_parameter_count (ztrie_new '/') = 0 ∧
    ztrie_hit_parameters (ztrie_new '/') = [] ∧
    ztrie_hit_asterisk_match (ztrie_new '/') = none :=
  claim_C7.1 (ztrie_new '/') rfl

/-- C8: the read paths are deterministic and idempotent — a second matches
call on the same path returns the same boolean and the same trie state, and
matches never modifies the tree or the delimiter (in this pure embedding the
hit accessors are functions of the trie state, hence trivially repeatable). -/
theorem claim_C8 :
    (∀ (pm : String → String → Bool) (t : Trie) (p : String),
        ztrie_matches pm (ztrie_matches pm t p).2 p = ztrie_matches pm t p) ∧
    (∀ (pm : String → String → Bool) (t : Trie) (p : String),
        (ztrie_matches pm t p).2.root = t.root ∧
        (ztrie_matches pm t p).2.delim = t.delim) := by
  constructor
  · intro pm t p
    cases hm : nodeMatch pm (String.mk [t.delim]) (tokenize t.delim p) t.root with
    | some r => simp [ztrie_matches, hm]
    | none => simp [ztrie_matches, hm]
  · intro pm t p
    cases hm : nodeMatch pm (String.mk [t.delim]) (tokenize t.delim p) t.root with
    | some r => simp [ztrie_matches, hm]
    | none => simp [ztrie_matches, hm]

/-- C9: over any sequence of inserts and removes followed by trie
destruction, with pairwise distinct inserted payload ids, each payload's
destructor runs at most once, and a payload attached without a destructor
is never freed by the trie. -/
theorem claim_C9 (d : Char) (ops : List Op)
    (hnd : ((insPayloads ops).map Payload.val).Nodup) :
    ((runOps (ztrie_new d) ops).2 ++ ztrie_destroy (runOps (ztrie_new d) ops).1).Nodup ∧
    (∀ v : Nat, (∀ (path : String) (hd : Bool), Op.ins path v hd ∈ ops → hd = false) →
        v ∉ (runOps (ztrie_new d) ops).2 ++ ztrie_destroy (runOps (ztrie_new d) ops).1) := by
  have hz : ztrie_destroy (ztrie_new d) = [] := by
    rw [show ztrie_destroy (ztrie_new d) = dtorEvents (ztrie_new d).root.datas from rfl,
      root_datas_new]
    rfl
  have hle : (((runOps (ztrie_new d) ops).2 ++
      ztrie_destroy (runOps (ztrie_new d) ops).1 : List Nat) : Multiset Nat) ≤
      ↑(dtorEvents (insPayloads ops)) := by
    have h := runOps_dtors ops (ztrie_new d)
    rw [hz] at h
    calc (((runOps (ztrie_new d) ops).2 ++
          ztrie_destroy (runOps (ztrie_new d) ops).1 : List Nat) : Multiset Nat)
        = ↑(runOps (ztrie_new d) ops).2 +
            ↑(ztrie_destroy (runOps (ztrie_new d) ops).1) := (Multiset.coe_add _ _).symm
      _ ≤ ↑(dtorEvents (insPayloads ops)) + ↑([] : List Nat) := h
      _ = ↑(dtorEvents (insPayloads ops)) := by simp
  have hDInodup : (dtorEvents (insPayloads ops)).Nodup :=
    hnd.sublist (dtorEvents_sublist _)
  constructor
  · exact Multiset.coe_nodup.mp (Multiset.nodup_of_le hle (Multiset.coe_nodup.mpr hDInodup))
  · intro v hv hmem
    have hm : v ∈ dtorEvents (insPayloads ops) :=
      Multiset.mem_coe.mp (Multiset.mem_of_le hle (Multiset.mem_coe.mpr hmem))
    obtain ⟨q, hq, hdt, hval⟩ := mem_dtorEvents hm
    obtain ⟨path, hpath⟩ := mem_insPayloads hq
    rw [hval] at hpath
    rw [hv path q.hasDtor hpath] at hdt
    exact Bool.noConfusion hdt

/-- Witness for C9: insert "/a" with a destructor-owning payload then remove
it; across the run and teardown the destructor fires exactly once. -/
theorem claim_C9_witness :
    ((insPayloads [Op.ins "/a" 1 true, Op.rem "/a"]).map Payload.val).Nodup ∧
    ((runOps (ztrie_new '/') [Op.ins "/a" 1 true, Op.rem "/a"]).2 ++
      ztrie_destroy (runOps (ztrie_new '/') [Op.ins "/a" 1 true, Op.rem "/a"]).1).Nodup :=
  ⟨by decide, (claim_C9 '/' [Op.ins "/a" 1 true, Op.rem "/a"] (by decide)).1⟩

/-- C10: every QmlZtrie wrapper method forwards to the corresponding ztrie
function on the text carried by the QString and returns its result
unchanged; hitAsteriskMatch returns the null QString exactly when the C call
returns NULL, and returns any non-NULL capture (empty included) verbatim. -/
theorem claim_C10 :
    (∀ (t : Trie) (path : String) (pay : Payload),
        QmlZtrie_insertRoute t path pay = ztrie_insert_route t path pay) ∧
    (∀ (t : Trie) (path : String),
        QmlZtrie_removeRoute t path = ztrie_remove_route t path) ∧
    (∀ (pm : String → String → Bool) (t : Trie) (path : String),
        QmlZtrie_matches pm t path = ztrie_matches pm t path) ∧
    (∀ t : Trie, QmlZtrie_hitData t = ztrie_hit_data t ∧
        QmlZtrie_hitParameterCount t = ztrie_hit_parameter_count t ∧
        QmlZtrie_hitParameters t = ztrie_hit_parameters t) ∧
    (∀ t : Trie,
        (QmlZtrie_hitAsteriskMatch t = none ↔ ztrie_hit_asterisk_match t = none) ∧
        (∀ s : String, ztrie_hit_asterisk_match t = some s →
          QmlZtrie_hitAsteriskMatch t = some s)) := by
  refine ⟨fun t path pay => rfl, fun t path => rfl, fun pm t path => rfl,
    fun t => ⟨rfl, rfl, rfl⟩, ?_⟩
  intro t
  refine ⟨⟨?_, ?_⟩, ?_⟩
  · intro h
    cases ha : ztrie_hit_asterisk_match t with
    | none => rfl
    | some s =>
      rw [QmlZtrie_hitAsteriskMatch, ha] at h
      exact Option.noConfusion h
  · intro h
    rw [QmlZtrie_hitAsteriskMatch, h]
    rfl
  · intro s h
    rw [QmlZtrie_hitAsteriskMatch, h]
    rfl

/-- Witness for C10: the wrapper returns the asterisk capture of a concrete
matched trie verbatim. -/
theorem claim_C10_witness :
    QmlZtrie_hitAsteriskMatch (ztrie_matches (fun _ _ => false) (ztrie_insert_route
      (ztrie_new '/') "/files/*" ⟨9, false⟩).2 "/files/a/b/c").2 = some "a/b/c" :=
  (claim_C10.2.2.2.2 _).2 "a/b/c" (by decide)

end Ztrie
